import Mathlib

/-!
A shallow embedding of the number-theoretic RSA engine in `src/RSA.py`,
together with proofs of the specification claims about it.

Conventions of the embedding:
* Python's arbitrary-precision integers are modelled by `ℤ` (or by `ℕ` where
  the source only ever passes non-negative values).
* Python's `%` on a positive modulus agrees with `Int.emod` / `Nat.mod`, and
  Python's `//` on non-negative operands agrees with `Nat.div`.
* `while` loops are modelled by recursive functions on an argument that the
  loop decreases; the unconditional Newton loop of `raiz_entera` is in
  addition modelled by an explicitly fuelled variant `newton_fuel` so that
  its termination is itself a provable statement.
* Python exceptions are modelled by `Except String` / `Option` results.
* The module-level randomness (`random.randrange`, `random.getrandbits`) is
  injected: the Miller-Rabin witnesses become an explicit sequence `w : ℕ → ℕ`
  and the two random primes of `generar_claves_rsa` become parameters.
-/

namespace RSA

/-! ### exponenciacion_modular (src/RSA.py lines 6-27)

The body of the `while b > 0` loop: `resultado` is the accumulator, `a` the
repeatedly squared base (already reduced mod `n`), `b` the remaining exponent
bits.  Each step multiplies the accumulator when the low bit of `b` is set,
squares the base, and shifts `b` right. -/
def expmod_loop (n : ℤ) (b : ℕ) (a resultado : ℤ) : ℤ :=
  if h : b = 0 then resultado
  else
    expmod_loop n (b / 2) (a * a % n) (if b % 2 = 1 then resultado * a % n else resultado)
termination_by b
decreasing_by exact Nat.div_lt_self (Nat.pos_of_ne_zero h) one_lt_two

/-- Embeds `exponenciacion_modular(a, b, n)`: binary modular exponentiation.
The exponent is a `ℕ` (the claims only concern `b ≥ 0`). -/
def exponenciacion_modular (a : ℤ) (b : ℕ) (n : ℤ) : ℤ :=
  expmod_loop n b (a % n) 1

/-! ### descomponer_potencia_dos (src/RSA.py lines 29-41) -/

/-- The `while d % 2 == 0` loop of `descomponer_potencia_dos`, returning the
pair `(s, d)`.  For every positive argument it behaves exactly like the
Python loop (which never reaches `0` from a positive start); the extra
`d ≠ 0` guard only makes the function total where Python would not return
(the function is only ever called on `n - 1` for odd `n ≥ 5`). -/
def quitar_dos (d : ℕ) : ℕ × ℕ :=
  if h : d % 2 = 0 ∧ d ≠ 0 then ((quitar_dos (d / 2)).1 + 1, (quitar_dos (d / 2)).2)
  else (0, d)
termination_by d
decreasing_by exact Nat.div_lt_self (Nat.pos_of_ne_zero h.2) one_lt_two

/-- Embeds `descomponer_potencia_dos(n)`: writes `n - 1 = d * 2^s` with `d` odd,
returning `(s, d)`. -/
def descomponer_potencia_dos (n : ℕ) : ℕ × ℕ :=
  quitar_dos (n - 1)

/-! ### mcd_extendido (src/RSA.py lines 43-55) -/

/-- Embeds `mcd_extendido(a, b)`: extended Euclid, returning `(g, x, y)` with
`g = gcd(a, b) = a*x + b*y`.  The source only ever calls it on non-negative
integers, so the first two arguments are `ℕ`; the Bézout coefficients are
genuinely signed. -/
def mcd_extendido (a b : ℕ) : ℕ × ℤ × ℤ :=
  if h : a = 0 then (b, 0, 1)
  else
    ((mcd_extendido (b % a) a).1,
     (mcd_extendido (b % a) a).2.2 - ((b / a : ℕ) : ℤ) * (mcd_extendido (b % a) a).2.1,
     (mcd_extendido (b % a) a).2.1)
termination_by a
decreasing_by exact Nat.mod_lt _ (Nat.pos_of_ne_zero h)

/-! ### inverso_modular (src/RSA.py lines 57-67) -/

/-- Embeds `inverso_modular(a, m)`: the raised exception
`"No existe inverso modular"` is modelled by `none`; on success the source
returns `x % m`, which is non-negative, so the result is a `ℕ`. -/
def inverso_modular (a m : ℕ) : Option ℕ :=
  if (mcd_extendido a m).1 ≠ 1 then none
  else some (((mcd_extendido a m).2.1 % (m : ℤ)).toNat)

/-! ### raiz_entera (src/RSA.py lines 69-83) -/

/-- The unconditional `while True` Newton loop of `raiz_entera`: compute
`y = (x + n // x) // 2`; if `y ≥ x` return `x`, else continue from `y`. -/
def newton_loop (n x : ℕ) : ℕ :=
  if x ≤ (x + n / x) / 2 then x
  else newton_loop n ((x + n / x) / 2)
termination_by x
decreasing_by omega

/-- The same Newton loop with explicit fuel: `none` means the loop was still
running after `fuel` iterations.  Used to state that the unconditional loop
terminates (claim on termination of `raiz_entera`). -/
def newton_fuel (n : ℕ) : ℕ → ℕ → Option ℕ
  | 0, _ => none
  | fuel + 1, x =>
    if x ≤ (x + n / x) / 2 then some x
    else newton_fuel n fuel ((x + n / x) / 2)

/-- Embeds `raiz_entera(n)`: integer square root by Newton iteration.  A negative
argument raises `ValueError`, modelled as `.error`; the start value is
`2^(n.bit_length() // 2 + 1)`, and Python's `bit_length` is `Nat.size`. -/
def raiz_entera (n : ℤ) : Except String ℕ :=
  if n < 0 then .error "No se puede calcular la raíz de un número negativo."
  else if n = 0 then .ok 0
  else .ok (newton_loop n.toNat (2 ^ (Nat.size n.toNat / 2 + 1)))

/-! ### ronda_miller_rabin (src/RSA.py lines 89-107) -/

/-- The `for _ in range(0, s - 1)` squaring loop of `ronda_miller_rabin`:
square `x` modulo `n` up to `k` times, returning `true` as soon as a value
equals `n - 1`. -/
def mr_sqloop (n : ℕ) (x : ℤ) : ℕ → Bool
  | 0 => false
  | k + 1 =>
    if x * x % (n : ℤ) = (n : ℤ) - 1 then true
    else mr_sqloop n (x * x % (n : ℤ)) k

/-- The chain of values produced by the squaring loop: `sq_iter n x j` is
`x` squared `j` times, reducing mod `n` after each squaring (so
`sq_iter n x (j+1)` is the value compared against `n - 1` in iteration
`j` of `mr_sqloop`). -/
def sq_iter (n : ℕ) (x : ℤ) : ℕ → ℤ
  | 0 => x
  | j + 1 => sq_iter n x j * sq_iter n x j % (n : ℤ)

/-- Embeds `ronda_miller_rabin(n, a)`: one Miller-Rabin round with base `a`; the
source binds `s, d = descomponer_potencia_dos(n)` and
`x = exponenciacion_modular(a, d, n)`, written out here by projection. -/
def ronda_miller_rabin (n a : ℕ) : Bool :=
  if exponenciacion_modular (a : ℤ) (descomponer_potencia_dos n).2 (n : ℤ) = 1 ∨
     exponenciacion_modular (a : ℤ) (descomponer_potencia_dos n).2 (n : ℤ) = (n : ℤ) - 1
  then true
  else
    mr_sqloop n (exponenciacion_modular (a : ℤ) (descomponer_potencia_dos n).2 (n : ℤ))
      ((descomponer_potencia_dos n).1 - 1)

/-! ### es_primo_probable (src/RSA.py lines 109-127) -/

/-- Embeds `es_primo_probable(n, rondas)`: the random witnesses
`a = random.randrange(2, n - 1)` are injected as the sequence `w`; round `i`
uses witness `w i` (`randrange(2, n - 1)` yields values in `[2, n - 2]`). -/
def es_primo_probable (n rondas : ℕ) (w : ℕ → ℕ) : Bool :=
  if n < 2 then false
  else if n = 2 ∨ n = 3 then true
  else if n % 2 = 0 then false
  else (List.range rondas).all fun i => ronda_miller_rabin n (w i)

/-! ### generar_claves_rsa (src/RSA.py lines 156-173) -/

/-- Embeds `generar_claves_rsa(bits)` with the randomness injected: `p` and `q`
stand for the two values returned by `generar_primo(bits)`.  The
`"No existe inverso modular"` exception propagating out of
`inverso_modular` is modelled by `none`. -/
def generar_claves_rsa_con (p q : ℕ) : Option ((ℕ × ℕ) × (ℕ × ℕ)) :=
  match inverso_modular 65537 ((p - 1) * (q - 1)) with
  | none => none
  | some d => some ((p * q, 65537), (p * q, d))

/-! ### cifrar_rsa / descifrar_rsa (src/RSA.py lines 175-181) -/

/-- Embeds `cifrar_rsa(mensaje, clave_publica)`. -/
def cifrar_rsa (mensaje : ℤ) (clave_publica : ℕ × ℕ) : ℤ :=
  exponenciacion_modular mensaje clave_publica.2 (clave_publica.1 : ℤ)

/-- Embeds `descifrar_rsa(cifrado, clave_privada)`. -/
def descifrar_rsa (cifrado : ℤ) (clave_privada : ℕ × ℕ) : ℤ :=
  exponenciacion_modular cifrado clave_privada.2 (clave_privada.1 : ℤ)

/-! ### ataque_de_fermat (src/RSA.py lines 185-219) -/

/-- The `for _ in range(0, K)` loop of `ataque_de_fermat`: at candidate `x`
compute `y2 = x*x - n` (as an integer, as Python does), take its integer
square root, and on an exact square return `(x - y, x + y)`; otherwise move
to `x + 1`.  An exception from `raiz_entera` would propagate (`.error`);
exhaustion returns `.ok none`. -/
def ataque_loop (n : ℕ) : ℕ → ℕ → Except String (Option (ℕ × ℕ))
  | _, 0 => .ok none
  | x, k + 1 =>
    match raiz_entera ((x : ℤ) * x - n) with
    | .error e => .error e
    | .ok y =>
      if (y : ℤ) * y = (x : ℤ) * x - n then .ok (some (x - y, x + y))
      else ataque_loop n (x + 1) k

/-- Embeds `ataque_de_fermat(n, K)`: start at `x = ⌈√n⌉` (the integer square root,
incremented once if its square is below `n`) and search at most `K`
candidates. -/
def ataque_de_fermat (n : ℕ) (K : ℕ) : Except String (Option (ℕ × ℕ)) :=
  match raiz_entera (n : ℤ) with
  | .error e => .error e
  | .ok x0 => ataque_loop n (if x0 * x0 < n then x0 + 1 else x0) K

/-- The first candidate `x` examined by `ataque_de_fermat n` (the value of
`x` after the `if x * x < n: x += 1` adjustment), expressed through
`Nat.sqrt`; `fermat_inicio n` is exactly `⌈√n⌉`. -/
def fermat_inicio (n : ℕ) : ℕ :=
  if Nat.sqrt n * Nat.sqrt n < n then Nat.sqrt n + 1 else Nat.sqrt n

/-! ## Correctness of exponenciacion_modular -/

/-- Congruence fact: `a % n` is congruent to `a` modulo `n` over `ℤ`. -/
lemma int_emod_modEq (a n : ℤ) : a % n ≡ a [ZMOD n] :=
  Int.emod_emod_of_dvd a dvd_rfl

/-- Identity `a ^ b % n = (a % n) ^ b % n` over `ℤ`. -/
lemma int_pow_emod (a : ℤ) (b : ℕ) (n : ℤ) : a ^ b % n = (a % n) ^ b % n :=
  (((int_emod_modEq a n).pow b).symm : _)

lemma expmod_loop_spec (n : ℤ) :
    ∀ b : ℕ, b ≠ 0 → ∀ a r : ℤ, expmod_loop n b a r = r * a ^ b % n := by
  intro b
  induction b using Nat.strong_induction_on with
  | _ b ih =>
    intro hb a r
    rw [expmod_loop, dif_neg hb]
    by_cases h2 : b / 2 = 0
    · have hb1 : b = 1 := by omega
      subst hb1
      simp [expmod_loop]
    · rw [ih (b / 2) (Nat.div_lt_self (Nat.pos_of_ne_zero hb) one_lt_two) h2]
      have h2' : a * a % n ≡ a * a [ZMOD n] := int_emod_modEq _ n
      by_cases hpar : b % 2 = 1
      · rw [if_pos hpar]
        have h1 : r * a % n ≡ r * a [ZMOD n] := int_emod_modEq _ n
        calc ((r * a % n) * (a * a % n) ^ (b / 2)) % n
            = ((r * a) * (a * a) ^ (b / 2)) % n := by exact h1.mul (h2'.pow _)
          _ = r * a ^ b % n := by
              conv_rhs => rw [show b = 2 * (b / 2) + 1 by omega]
              congr 1
              ring
      · rw [if_neg hpar]
        calc (r * (a * a % n) ^ (b / 2)) % n
            = (r * (a * a) ^ (b / 2)) % n := by exact (Int.ModEq.refl r).mul (h2'.pow _)
          _ = r * a ^ b % n := by
              conv_rhs => rw [show b = 2 * (b / 2) by omega]
              congr 1
              ring

/-- For a positive exponent, `exponenciacion_modular` computes `a ^ b % n`. -/
lemma exponenciacion_modular_spec (a : ℤ) {b : ℕ} (hb : b ≠ 0) (n : ℤ) :
    exponenciacion_modular a b n = a ^ b % n := by
  rw [exponenciacion_modular, expmod_loop_spec n b hb, one_mul, ← int_pow_emod]

/-- For exponent `0` the loop never runs and the initial accumulator `1` is
returned unreduced. -/
lemma exponenciacion_modular_zero (a n : ℤ) : exponenciacion_modular a 0 n = 1 := by
  rw [exponenciacion_modular, expmod_loop, dif_pos rfl]

/-- The result of `exponenciacion_modular` lies in `[0, n)` whenever `n ≥ 2`,
for every integer base and every natural exponent (including `b = 0`, where
the unreduced accumulator `1` is still `< n`). -/
lemma exponenciacion_modular_range (a : ℤ) (b : ℕ) {n : ℤ} (hn : 2 ≤ n) :
    0 ≤ exponenciacion_modular a b n ∧ exponenciacion_modular a b n < n := by
  by_cases hb : b = 0
  · subst hb
    rw [exponenciacion_modular_zero]
    omega
  · rw [exponenciacion_modular_spec a hb]
    exact ⟨Int.emod_nonneg _ (by omega), Int.emod_lt_of_pos _ (by omega)⟩

/-- Claim C2, as stated, is false: at `a = 0`, `b = 0`, `n = 1` the code
returns the unreduced accumulator `1`, while the mathematical value
`a^b mod n = 1 mod 1` is `0` (the spec's "n = 1 yields result 0 for all a
and b" fails when `b = 0`). -/
theorem claim_C2_counterexample :
    exponenciacion_modular 0 0 1 = 1 ∧ (0 : ℤ) ^ 0 % 1 = 0 ∧ (1 : ℤ) ≠ 0 :=
  ⟨exponenciacion_modular_zero 0 1, by decide, by decide⟩

/-- Claim C2 (amended): for every integer `a` (any sign), every exponent
`b ≥ 0` and every modulus `n ≥ 1`, `exponenciacion_modular a b n` equals the
mathematically defined `a ^ b mod n`, except in the single corner case
`b = 0 ∧ n = 1` (excluded by the hypothesis), where the code returns `1`
instead of `0`.  In particular `b = 0` with `n ≥ 2` yields `1 mod n`, and
`n = 1` with `b ≥ 1` yields `0`. -/
theorem claim_C2_exponenciacion_modular (a : ℤ) (b : ℕ) (n : ℤ)
    (hn : 1 ≤ n) (h : b ≠ 0 ∨ 2 ≤ n) :
    exponenciacion_modular a b n = a ^ b % n := by
  by_cases hb : b = 0
  · subst hb
    have hn2 : 2 ≤ n := h.resolve_left (by simp)
    rw [exponenciacion_modular_zero, pow_zero, Int.emod_eq_of_lt (by norm_num) (by omega)]
  · exact exponenciacion_modular_spec a hb n

/-- Witness for claim C2 at the concrete input `a = 2`, `b = 3`, `n = 5`. -/
theorem claim_C2_witness :
    (1 : ℤ) ≤ 5 ∧ ((3 : ℕ) ≠ 0 ∨ (2 : ℤ) ≤ 5) ∧
      exponenciacion_modular 2 3 5 = 2 ^ 3 % 5 :=
  ⟨by norm_num, Or.inl (by norm_num),
    claim_C2_exponenciacion_modular 2 3 5 (by norm_num) (Or.inl (by norm_num))⟩

/-- Claim C10: for every modulus `n ≥ 2`, every integer `a` and every
`b ≥ 0`, `exponenciacion_modular a b n` lies in `[0, n)`; consequently
`cifrar_rsa` and `descifrar_rsa` return a value in `[0, n)` for any input
integer (negative or `≥ n` included). -/
theorem claim_C10_rango_salida (a : ℤ) (b : ℕ) (n : ℕ) (hn : 2 ≤ n)
    (m c : ℤ) (e d : ℕ) :
    (0 ≤ exponenciacion_modular a b n ∧ exponenciacion_modular a b n < n) ∧
    (0 ≤ cifrar_rsa m (n, e) ∧ cifrar_rsa m (n, e) < n) ∧
    (0 ≤ descifrar_rsa c (n, d) ∧ descifrar_rsa c (n, d) < n) := by
  have hn' : (2 : ℤ) ≤ (n : ℤ) := by exact_mod_cast hn
  exact ⟨exponenciacion_modular_range a b hn',
    exponenciacion_modular_range m e hn',
    exponenciacion_modular_range c d hn'⟩

/-- Witness for claim C10 at `a = -7`, `b = 2`, `n = 3`, `m = -5`, `c = 11`,
`e = 3`, `d = 0`. -/
theorem claim_C10_witness :
    (2 : ℕ) ≤ 3 ∧
    ((0 ≤ exponenciacion_modular (-7) 2 3 ∧ exponenciacion_modular (-7) 2 3 < 3) ∧
     (0 ≤ cifrar_rsa (-5) (3, 3) ∧ cifrar_rsa (-5) (3, 3) < 3) ∧
     (0 ≤ descifrar_rsa 11 (3, 0) ∧ descifrar_rsa 11 (3, 0) < 3)) :=
  ⟨by norm_num, claim_C10_rango_salida (-7) 2 3 (by norm_num) (-5) 11 3 0⟩

/-! ## Correctness of mcd_extendido and inverso_modular -/

/-- The first component of `mcd_extendido` is the gcd. -/
lemma mcd_extendido_gcd : ∀ a b : ℕ, (mcd_extendido a b).1 = Nat.gcd a b := by
  intro a
  induction a using Nat.strong_induction_on with
  | _ a ih =>
    intro b
    rw [mcd_extendido]
    by_cases h : a = 0
    · simp [h]
    · rw [dif_neg h]
      exact (ih (b % a) (Nat.mod_lt _ (Nat.pos_of_ne_zero h)) a).trans (Nat.gcd_rec a b).symm

/-- Bézout identity for `mcd_extendido`: `g = a*x + b*y`. -/
lemma mcd_extendido_bezout : ∀ a b : ℕ,
    ((mcd_extendido a b).1 : ℤ) =
      a * (mcd_extendido a b).2.1 + b * (mcd_extendido a b).2.2 := by
  intro a
  induction a using Nat.strong_induction_on with
  | _ a ih =>
    intro b
    rw [mcd_extendido]
    by_cases h : a = 0
    · simp [h]
    · rw [dif_neg h]
      have hrec := ih (b % a) (Nat.mod_lt _ (Nat.pos_of_ne_zero h)) a
      have hdm : (a : ℤ) * ((b / a : ℕ) : ℤ) + ((b % a : ℕ) : ℤ) = (b : ℤ) := by
        exact_mod_cast Nat.div_add_mod b a
      linear_combination hrec + (mcd_extendido (b % a) a).2.1 * hdm

/-- Failure case: `inverso_modular` raises (returns `none`) exactly when `gcd(a, m) ≠ 1`. -/
lemma inverso_modular_eq_none_iff (a m : ℕ) :
    inverso_modular a m = none ↔ Nat.gcd a m ≠ 1 := by
  rw [inverso_modular, mcd_extendido_gcd]
  by_cases h : Nat.gcd a m = 1 <;> simp [h]

/-- On coprime inputs `inverso_modular` returns `x % m` for the Bézout
coefficient `x`. -/
lemma inverso_modular_some (a m : ℕ) (h : Nat.gcd a m = 1) :
    inverso_modular a m = some (((mcd_extendido a m).2.1 % (m : ℤ)).toNat) := by
  rw [inverso_modular, mcd_extendido_gcd]
  simp [h]

/-- Whatever `inverso_modular` returns is a modular inverse in `[0, m)`. -/
lemma inverso_modular_spec (a m x : ℕ) (hm : 1 ≤ m)
    (h : inverso_modular a m = some x) : x < m ∧ (a * x) % m = 1 % m := by
  rw [inverso_modular] at h
  by_cases hg : (mcd_extendido a m).1 = 1
  · rw [if_neg (by simp [hg])] at h
    have hmz : (m : ℤ) ≠ 0 := by exact_mod_cast by omega
    have h0 : 0 ≤ (mcd_extendido a m).2.1 % (m : ℤ) :=
      Int.emod_nonneg _ hmz
    have h1 : (mcd_extendido a m).2.1 % (m : ℤ) < (m : ℤ) :=
      Int.emod_lt_of_pos _ (by exact_mod_cast hm)
    have hx : (x : ℤ) = (mcd_extendido a m).2.1 % (m : ℤ) := by
      rw [← Option.some_inj.mp h, Int.toNat_of_nonneg h0]
    constructor
    · omega
    · have hb := mcd_extendido_bezout a m
      rw [hg] at hb
      have hcong : (a : ℤ) * x % (m : ℤ) = 1 % (m : ℤ) := by
        calc (a : ℤ) * x % (m : ℤ)
            = (a : ℤ) * (mcd_extendido a m).2.1 % (m : ℤ) := by
              rw [hx]
              exact (Int.ModEq.refl _).mul (int_emod_modEq _ _)
          _ = 1 % (m : ℤ) := by
              refine (Int.modEq_iff_dvd.mpr ⟨(mcd_extendido a m).2.2, ?_⟩ : _)
              linear_combination hb
      exact_mod_cast hcong
  · rw [if_pos (by simp [hg])] at h
    exact absurd h (by simp)

/-- Claim C7: for all `a ≥ 0` and `m ≥ 1`, `inverso_modular a m` raises the
no-inverse exception (here: `none`) iff `gcd(a, m) ≠ 1`; when
`gcd(a, m) = 1` it returns the value `((x % m)).toNat` (for the Bézout
coefficient `x`), which lies in `[0, m)` and satisfies `a * x ≡ 1 (mod m)`;
and `mcd_extendido a b` returns `(g, x, y)` with `g = gcd(a, b) = a*x + b*y`. -/
theorem claim_C7_inverso_modular (a m b : ℕ) (hm : 1 ≤ m) :
    (inverso_modular a m = none ↔ Nat.gcd a m ≠ 1) ∧
    (Nat.gcd a m ≠ 1 ∨
      (inverso_modular a m = some (((mcd_extendido a m).2.1 % (m : ℤ)).toNat) ∧
       ((mcd_extendido a m).2.1 % (m : ℤ)).toNat < m ∧
       (a * ((mcd_extendido a m).2.1 % (m : ℤ)).toNat) % m = 1 % m)) ∧
    ((mcd_extendido a b).1 = Nat.gcd a b ∧
     ((mcd_extendido a b).1 : ℤ) =
       a * (mcd_extendido a b).2.1 + b * (mcd_extendido a b).2.2) := by
  refine ⟨inverso_modular_eq_none_iff a m, ?_, mcd_extendido_gcd a b, mcd_extendido_bezout a b⟩
  by_cases hg : Nat.gcd a m = 1
  · have hs := inverso_modular_some a m hg
    exact Or.inr ⟨hs, inverso_modular_spec a m _ hm hs⟩
  · exact Or.inl hg

/-- Witness for claim C7: `inverso_modular 4 8` raises (gcd 4), while
`inverso_modular 3 5` returns `2`, the inverse of `3` modulo `5`. -/
theorem claim_C7_witness :
    inverso_modular 4 8 = none ∧ inverso_modular 3 5 = some 2 ∧ (3 * 2) % 5 = 1 % 5 := by
  have hval : (((mcd_extendido 3 5).2.1 % (5 : ℤ)).toNat) = 2 := by
    set_option maxRecDepth 10000 in simp [mcd_extendido]
  have h2 := ((claim_C7_inverso_modular 3 5 0 (by norm_num)).2.1).resolve_left (by decide)
  refine ⟨(claim_C7_inverso_modular 4 8 0 (by norm_num)).1.mpr (by decide), ?_, by norm_num⟩
  rw [← hval]
  exact h2.1

/-- Claim C4: whenever `generar_claves_rsa` returns for generated primes
`p`, `q` (randomness injected as the parameters of
`generar_claves_rsa_con`) with `gcd(65537, (p-1)(q-1)) = 1`, the result is
`((n, 65537), (n, d))` with `n = p*q`, `0 ≤ d < (p-1)(q-1)` and
`65537 * d ≡ 1 (mod (p-1)(q-1))`, where `d` is the value
`(bezout coefficient) % (p-1)(q-1)` returned by `inverso_modular`; when the
gcd is not `1` the no-inverse error propagates (`none`) instead. -/
theorem claim_C4_generar_claves (p q : ℕ) :
    (Nat.gcd 65537 ((p - 1) * (q - 1)) ≠ 1 ∨
      (generar_claves_rsa_con p q =
        some ((p * q, 65537),
          (p * q,
            ((mcd_extendido 65537 ((p - 1) * (q - 1))).2.1 %
              (((p - 1) * (q - 1) : ℕ) : ℤ)).toNat)) ∧
       ((mcd_extendido 65537 ((p - 1) * (q - 1))).2.1 %
          (((p - 1) * (q - 1) : ℕ) : ℤ)).toNat < (p - 1) * (q - 1) ∧
       65537 * ((mcd_extendido 65537 ((p - 1) * (q - 1))).2.1 %
          (((p - 1) * (q - 1) : ℕ) : ℤ)).toNat ≡ 1 [MOD (p - 1) * (q - 1)])) ∧
    (Nat.gcd 65537 ((p - 1) * (q - 1)) = 1 ∨ generar_claves_rsa_con p q = none) := by
  by_cases hg : Nat.gcd 65537 ((p - 1) * (q - 1)) = 1
  · have hphi : 1 ≤ (p - 1) * (q - 1) := by
      rcases Nat.eq_zero_or_pos ((p - 1) * (q - 1)) with h0 | h1
      · rw [h0] at hg
        simp at hg
      · exact h1
    have hs := inverso_modular_some 65537 ((p - 1) * (q - 1)) hg
    have hspec := inverso_modular_spec 65537 ((p - 1) * (q - 1)) _ hphi hs
    refine ⟨Or.inr ⟨?_, hspec.1, hspec.2⟩, Or.inl hg⟩
    simp [generar_claves_rsa_con, hs]
  · have hn := (inverso_modular_eq_none_iff 65537 ((p - 1) * (q - 1))).mpr hg
    exact ⟨Or.inl hg, Or.inr (by simp [generar_claves_rsa_con, hn])⟩

/-! ## Correctness and termination of raiz_entera -/

/-- A natural number `m` with `r² ≤ m < (r+1)²` has `Nat.sqrt m = r`. -/
lemma nat_sqrt_eq {r m : ℕ} (h1 : r * r ≤ m) (h2 : m < (r + 1) * (r + 1)) :
    Nat.sqrt m = r :=
  le_antisymm
    (Nat.lt_succ_iff.mp (Nat.sqrt_lt'.mpr (by rw [sq]; exact h2)))
    (Nat.le_sqrt.mpr h1)

/-- A natural number in `[2^k, 2^(k+1))` has `Nat.size` (Python
`bit_length`) equal to `k + 1`. -/
lemma nat_size_eq {k m : ℕ} (h1 : 2 ^ k ≤ m) (h2 : m < 2 ^ (k + 1)) :
    Nat.size m = k + 1 :=
  le_antisymm (Nat.size_le.mpr h2) (Nat.lt_size.mpr h1)

/-- Integer AM-GM for the Newton step: for `x ≥ 1` the next iterate
`(x + n / x) / 2` never drops below `⌊√n⌋`. -/
lemma newton_y_ge_sqrt (n x : ℕ) (hx : 0 < x) :
    Nat.sqrt n ≤ (x + n / x) / 2 := by
  have hs : Nat.sqrt n * Nat.sqrt n ≤ n := Nat.sqrt_le n
  have h1 : Nat.sqrt n * Nat.sqrt n / x ≤ n / x := Nat.div_le_div_right hs
  have h2 : Nat.sqrt n * 2 ≤ x + Nat.sqrt n * Nat.sqrt n / x := by
    by_cases hxs : Nat.sqrt n * 2 ≤ x
    · exact le_trans hxs (Nat.le_add_right x _)
    · have h3 : (Nat.sqrt n * 2 - x) * x ≤ Nat.sqrt n * Nat.sqrt n := by
        zify [show x ≤ Nat.sqrt n * 2 by omega]
        nlinarith [sq_nonneg ((Nat.sqrt n : ℤ) - x)]
      have h4 : Nat.sqrt n * 2 - x ≤ Nat.sqrt n * Nat.sqrt n / x :=
        (Nat.le_div_iff_mul_le hx).mpr h3
      omega
  exact (Nat.le_div_iff_mul_le two_pos).mpr (by omega)

/-- When the Newton loop exits (`y ≥ x`) from a state `x ≥ ⌊√n⌋`, the
returned `x` is exactly `⌊√n⌋`. -/
lemma newton_exit_eq (n x : ℕ) (hn : 0 < n) (hsx : Nat.sqrt n ≤ x)
    (hexit : x ≤ (x + n / x) / 2) : x = Nat.sqrt n := by
  have hx0 : 0 < x := lt_of_lt_of_le (Nat.sqrt_pos.mpr hn) hsx
  have h1 : x * 2 ≤ x + n / x := (Nat.le_div_iff_mul_le two_pos).mp hexit
  have h2 : x * x ≤ n := (Nat.le_div_iff_mul_le hx0).mp (by omega)
  exact le_antisymm (Nat.le_sqrt.mpr h2) hsx

/-- The Newton loop started at or above `⌊√n⌋` computes `⌊√n⌋`. -/
lemma newton_loop_eq (n : ℕ) (hn : 0 < n) :
    ∀ x, Nat.sqrt n ≤ x → newton_loop n x = Nat.sqrt n := by
  intro x
  induction x using Nat.strong_induction_on with
  | _ x ih =>
    intro hsx
    have hx0 : 0 < x := lt_of_lt_of_le (Nat.sqrt_pos.mpr hn) hsx
    rw [newton_loop]
    by_cases hexit : x ≤ (x + n / x) / 2
    · rw [if_pos hexit]
      exact newton_exit_eq n x hn hsx hexit
    · rw [if_neg hexit]
      exact ih _ (by omega) (newton_y_ge_sqrt n x hx0)

/-- The starting value `2^(bit_length(n)/2 + 1)` is an upper bound for
`⌊√n⌋`. -/
lemma sqrt_le_start (n : ℕ) : Nat.sqrt n ≤ 2 ^ (Nat.size n / 2 + 1) := by
  have h1 : n < 2 ^ Nat.size n := Nat.lt_size_self n
  have h2 : 2 ^ Nat.size n ≤ 2 ^ (2 * (Nat.size n / 2 + 1)) :=
    Nat.pow_le_pow_right (by norm_num) (by omega)
  refine le_of_lt (Nat.sqrt_lt'.mpr ?_)
  calc n < 2 ^ Nat.size n := h1
    _ ≤ 2 ^ (2 * (Nat.size n / 2 + 1)) := h2
    _ = (2 ^ (Nat.size n / 2 + 1)) ^ 2 := by rw [← pow_mul, mul_comm]

/-- Success case: `raiz_entera` succeeds on every non-negative input and returns `⌊√n⌋`. -/
lemma raiz_entera_ok (z : ℤ) (hz : 0 ≤ z) :
    raiz_entera z = .ok (Nat.sqrt z.toNat) := by
  rw [raiz_entera, if_neg (not_lt.mpr hz)]
  by_cases h0 : z = 0
  · simp [h0]
  · rw [if_neg h0]
    exact congrArg Except.ok (newton_loop_eq z.toNat (by omega) _ (sqrt_le_start z.toNat))

/-- Claim C8: for every `n ≥ 0`, `raiz_entera n` returns `r = ⌊√n⌋`
(so `r² ≤ n < (r+1)²`); for every `n < 0` it raises the `ValueError`
before any computation. -/
theorem claim_C8_raiz_entera (z : ℤ) :
    (0 ≤ z →
      raiz_entera z = .ok (Nat.sqrt z.toNat) ∧
      (Nat.sqrt z.toNat : ℤ) * (Nat.sqrt z.toNat : ℤ) ≤ z ∧
      z < ((Nat.sqrt z.toNat : ℤ) + 1) * ((Nat.sqrt z.toNat : ℤ) + 1)) ∧
    (z < 0 →
      raiz_entera z = .error "No se puede calcular la raíz de un número negativo.") := by
  constructor
  · intro hz
    refine ⟨raiz_entera_ok z hz, ?_, ?_⟩
    · calc (Nat.sqrt z.toNat : ℤ) * (Nat.sqrt z.toNat : ℤ)
          = ((Nat.sqrt z.toNat * Nat.sqrt z.toNat : ℕ) : ℤ) := by push_cast; ring
        _ ≤ (z.toNat : ℤ) := by exact_mod_cast Nat.sqrt_le z.toNat
        _ = z := Int.toNat_of_nonneg hz
    · calc z = (z.toNat : ℤ) := (Int.toNat_of_nonneg hz).symm
        _ < (((Nat.sqrt z.toNat + 1) * (Nat.sqrt z.toNat + 1) : ℕ) : ℤ) := by
            exact_mod_cast Nat.lt_succ_sqrt z.toNat
        _ = ((Nat.sqrt z.toNat : ℤ) + 1) * ((Nat.sqrt z.toNat : ℤ) + 1) := by push_cast; ring
  · intro hz
    rw [raiz_entera, if_pos hz]

/-- Witness for claim C8: `raiz_entera 2 = ok 1` with `1² ≤ 2 < 2²`, and
`raiz_entera (-1)` raises. -/
theorem claim_C8_witness :
    raiz_entera 2 = .ok 1 ∧ (1 : ℤ) * 1 ≤ 2 ∧ (2 : ℤ) < (1 + 1) * (1 + 1) ∧
      raiz_entera (-1) = .error "No se puede calcular la raíz de un número negativo." := by
  have h := (claim_C8_raiz_entera 2).1 (by norm_num)
  have hs : Nat.sqrt ((2 : ℤ).toNat) = 1 := nat_sqrt_eq (by norm_num) (by norm_num)
  rw [hs] at h
  exact ⟨h.1, by norm_num, by norm_num, (claim_C8_raiz_entera (-1)).2 (by norm_num)⟩

/-- The fuelled Newton loop reaches its exit within any fuel larger than
the starting value, because the iterate strictly decreases until exit. -/
lemma newton_fuel_eq (n : ℕ) (hn : 0 < n) :
    ∀ fuel x, x < fuel → Nat.sqrt n ≤ x →
      newton_fuel n fuel x = some (Nat.sqrt n) := by
  intro fuel
  induction fuel with
  | zero => omega
  | succ fuel ih =>
    intro x hx hsx
    have hx0 : 0 < x := lt_of_lt_of_le (Nat.sqrt_pos.mpr hn) hsx
    rw [newton_fuel]
    by_cases hexit : x ≤ (x + n / x) / 2
    · rw [if_pos hexit]
      exact congrArg some (newton_exit_eq n x hn hsx hexit)
    · rw [if_neg hexit]
      exact ih _ (by omega) (newton_y_ge_sqrt n x hx0)

/-- Claim C9: for every `n ≥ 1` (the only case in which `raiz_entera`
enters its loop), the unconditional Newton iteration terminates: the
fuelled loop, started at `2^(bit_length(n)/2 + 1)` exactly as
`raiz_entera` starts it, exits within start+1 steps — the start value
bounds `⌊√n⌋` from above, every iterate stays `≥ ⌊√n⌋`, and the iterate
strictly decreases until the exit test fires — returning `⌊√n⌋`. -/
theorem claim_C9_terminacion (n : ℕ) (hn : 1 ≤ n) :
    newton_fuel n (2 ^ (Nat.size n / 2 + 1) + 1) (2 ^ (Nat.size n / 2 + 1)) =
      some (Nat.sqrt n) :=
  newton_fuel_eq n hn _ _ (lt_add_one _) (sqrt_le_start n)

/-- Witness for claim C9 at `n = 5`: the loop starts at `4` and exits
within `5` steps with `⌊√5⌋ = 2`. -/
theorem claim_C9_witness : 1 ≤ 5 ∧ newton_fuel 5 5 4 = some 2 := by
  have hsize : Nat.size 5 = 3 := nat_size_eq (by norm_num) (by norm_num)
  have hsqrt : Nat.sqrt 5 = 2 := nat_sqrt_eq (by norm_num) (by norm_num)
  have h := claim_C9_terminacion 5 (by norm_num)
  rw [hsize, hsqrt] at h
  norm_num at h
  exact ⟨by norm_num, h⟩

/-! ## Soundness and exhaustion of ataque_de_fermat -/

/-- Characterization: `m` is a perfect square exactly when its integer square root squares
back to `m`. -/
lemma square_iff (m : ℕ) : (∃ y : ℕ, m = y * y) ↔ Nat.sqrt m * Nat.sqrt m = m := by
  constructor
  · rintro ⟨y, rfl⟩
    rw [nat_sqrt_eq (le_refl (y * y)) (Nat.mul_self_lt_mul_self (lt_add_one y))]
  · intro h
    exact ⟨Nat.sqrt m, h.symm⟩

/-- Unfolding step: `ataque_de_fermat n K` always evaluates `ataque_loop` from the start
candidate `fermat_inicio n = ⌈√n⌉`. -/
lemma ataque_de_fermat_eq (n K : ℕ) :
    ataque_de_fermat n K = ataque_loop n (fermat_inicio n) K := by
  rw [ataque_de_fermat, raiz_entera_ok (n : ℤ) (Int.natCast_nonneg n), Int.toNat_natCast,
    fermat_inicio]

/-- The start candidate already satisfies the loop invariant `n ≤ x²`. -/
lemma inicio_sq (n : ℕ) : n ≤ fermat_inicio n * fermat_inicio n := by
  rw [fermat_inicio]
  by_cases h : Nat.sqrt n * Nat.sqrt n < n
  · rw [if_pos h]
    have h2 := Nat.lt_succ_sqrt n
    simp only [Nat.succ_eq_add_one] at h2
    omega
  · rw [if_neg h]
    omega

/-- One unfolding of `ataque_loop` at `k + 1`, with the integer square root
call resolved: the tested condition becomes "`x² - n` is the square of its
integer square root". -/
lemma ataque_loop_succ (n x k : ℕ) (hx : n ≤ x * x) :
    ataque_loop n x (k + 1) =
      if (Nat.sqrt (x * x - n) : ℤ) * (Nat.sqrt (x * x - n) : ℤ) = (x : ℤ) * x - n
      then .ok (some (x - Nat.sqrt (x * x - n), x + Nat.sqrt (x * x - n)))
      else ataque_loop n (x + 1) k := by
  have hxx : ((x : ℤ) * x) = ((x * x : ℕ) : ℤ) := by push_cast; ring
  have hz : (0 : ℤ) ≤ (x : ℤ) * x - n := by omega
  have htn : ((x : ℤ) * x - (n : ℤ)).toNat = x * x - n := by omega
  rw [ataque_loop, raiz_entera_ok _ hz, htn]

/-- Main loop lemma: from any candidate `x` with `n ≤ x²`, the loop always
returns (never raises), and returns `none` exactly when none of the `k`
candidates `x, x+1, …, x+k-1` makes `x² - n` a perfect square. -/
lemma ataque_loop_spec (n : ℕ) :
    ∀ k x : ℕ, n ≤ x * x →
      (∃ r, ataque_loop n x k = .ok r) ∧
      (ataque_loop n x k = .ok none ↔
        ∀ j, j < k → ¬ ∃ y : ℕ, (x + j) * (x + j) - n = y * y) := by
  intro k
  induction k with
  | zero =>
    intro x hx
    exact ⟨⟨none, rfl⟩, by simp [ataque_loop]⟩
  | succ k ih =>
    intro x hx
    have hxx : ((x : ℤ) * x) = ((x * x : ℕ) : ℤ) := by push_cast; ring
    rw [ataque_loop_succ n x k hx]
    by_cases hsq : (Nat.sqrt (x * x - n) : ℤ) * (Nat.sqrt (x * x - n) : ℤ) = (x : ℤ) * x - n
    · rw [if_pos hsq]
      have hsq' : x * x - n = Nat.sqrt (x * x - n) * Nat.sqrt (x * x - n) := by omega
      refine ⟨⟨some (x - Nat.sqrt (x * x - n), x + Nat.sqrt (x * x - n)), rfl⟩, ?_⟩
      constructor
      · intro h
        exact absurd h (by simp)
      · intro h
        exact absurd ⟨Nat.sqrt (x * x - n), by simpa using hsq'⟩ (h 0 (Nat.succ_pos k))
    · rw [if_neg hsq]
      have hx1 : n ≤ (x + 1) * (x + 1) :=
        le_trans hx (Nat.mul_self_le_mul_self (Nat.le_succ x))
      obtain ⟨hex, hiff⟩ := ih (x + 1) hx1
      refine ⟨hex, hiff.trans ?_⟩
      constructor
      · intro h j hj
        match j with
        | 0 =>
          rintro ⟨y, hy⟩
          apply hsq
          rw [Nat.add_zero] at hy
          have hss : Nat.sqrt (x * x - n) * Nat.sqrt (x * x - n) = x * x - n :=
            (square_iff (x * x - n)).mp ⟨y, hy⟩
          have hcast : ((Nat.sqrt (x * x - n) : ℤ)) * (Nat.sqrt (x * x - n) : ℤ) =
              ((Nat.sqrt (x * x - n) * Nat.sqrt (x * x - n) : ℕ) : ℤ) := by push_cast; ring
          omega
        | j + 1 =>
          have hrw : x + (j + 1) = (x + 1) + j := by omega
          rw [hrw]
          exact h j (by omega)
      · intro h j hj
        have hrw : (x + 1) + j = x + (j + 1) := by omega
        rw [hrw]
        exact h (j + 1) (by omega)

/-- Claim C6: for every `n ≥ 0` and `K ≥ 0`, `ataque_de_fermat n K`
terminates without raising (always `.ok`), and returns `none` exactly when
none of the `K` candidates `⌈√n⌉, ⌈√n⌉+1, …, ⌈√n⌉+K-1` makes `x² - n` a
perfect square; `none` is an ordinary return value, never an exception. -/
theorem claim_C6_agotamiento (n K : ℕ) :
    (∃ r : Option (ℕ × ℕ), ataque_de_fermat n K = .ok r) ∧
    (ataque_de_fermat n K = .ok none ↔
      ∀ j, j < K →
        ¬ ∃ y : ℕ, (fermat_inicio n + j) * (fermat_inicio n + j) - n = y * y) := by
  rw [ataque_de_fermat_eq]
  exact ataque_loop_spec n K (fermat_inicio n) (inicio_sq n)

/-- Witness for claim C6 at `n = 2`, `K = 1`: the single candidate `x = 2`
has `x² - n = 2`, not a square, so the attack returns the ordinary `none`. -/
theorem claim_C6_witness : ataque_de_fermat 2 1 = .ok none := by
  have hs2 : Nat.sqrt 2 = 1 := nat_sqrt_eq (by norm_num) (by norm_num)
  have hi : fermat_inicio 2 = 2 := by rw [fermat_inicio, hs2]; norm_num
  apply (claim_C6_agotamiento 2 1).2.mpr
  intro j hj
  interval_cases j
  rintro ⟨y, hy⟩
  rw [hi] at hy
  norm_num at hy
  rcases Nat.lt_or_ge y 2 with h | h
  · interval_cases y <;> omega
  · nlinarith

/-- If the loop succeeds, the returned pair comes from a candidate `xx ≥ x`
whose square exceeds `n` by a perfect square `y²`. -/
lemma ataque_loop_success (n : ℕ) :
    ∀ k x u v : ℕ, n ≤ x * x → ataque_loop n x k = .ok (some (u, v)) →
      ∃ xx y : ℕ, u = xx - y ∧ v = xx + y ∧ y ≤ xx ∧ n ≤ xx * xx ∧
        xx * xx - n = y * y := by
  intro k
  induction k with
  | zero =>
    intro x u v hx h
    simp [ataque_loop] at h
  | succ k ih =>
    intro x u v hx h
    rw [ataque_loop_succ n x k hx] at h
    by_cases hsq : (Nat.sqrt (x * x - n) : ℤ) * (Nat.sqrt (x * x - n) : ℤ) = (x : ℤ) * x - n
    · rw [if_pos hsq] at h
      have hxx : ((x : ℤ) * x) = ((x * x : ℕ) : ℤ) := by push_cast; ring
      have hsq' : x * x - n = Nat.sqrt (x * x - n) * Nat.sqrt (x * x - n) := by omega
      simp only [Except.ok.injEq, Option.some.injEq, Prod.mk.injEq] at h
      have hyx : Nat.sqrt (x * x - n) ≤ x := by
        by_contra hcon
        have := Nat.mul_self_lt_mul_self (Nat.lt_of_not_le hcon)
        omega
      exact ⟨x, Nat.sqrt (x * x - n), h.1.symm, h.2.symm, hyx, hx, hsq'⟩
    · rw [if_neg hsq] at h
      have hx1 : n ≤ (x + 1) * (x + 1) :=
        le_trans hx (Nat.mul_self_le_mul_self (Nat.le_succ x))
      exact ih (x + 1) u v hx1 h

/-- Claim C5: for every `n ≥ 1` and `K ≥ 0`, if `ataque_de_fermat n K`
returns a pair `(u, v)` then `u * v = n` and `u ≤ v`, and setting
`x = (u+v)/2` and `y = (v-u)/2` (both exact: `u + v` is even) the pair is
`(x - y, x + y)` for a candidate `x ≥ ⌈√n⌉` (that is, `n ≤ x²`) whose
excess `x² - n` is the perfect square `y²`. -/
theorem claim_C5_exito (n K u v : ℕ) (hn : 1 ≤ n)
    (h : ataque_de_fermat n K = .ok (some (u, v))) :
    u * v = n ∧ u ≤ v ∧ 2 ∣ u + v ∧
    n ≤ ((u + v) / 2) * ((u + v) / 2) ∧
    ((u + v) / 2) * ((u + v) / 2) - n = ((v - u) / 2) * ((v - u) / 2) ∧
    (u + v) / 2 - (v - u) / 2 = u ∧ (u + v) / 2 + (v - u) / 2 = v := by
  rw [ataque_de_fermat_eq] at h
  obtain ⟨xx, y, hu, hv, hyx, hnx, hsq⟩ :=
    ataque_loop_success n K (fermat_inicio n) u v (inicio_sq n) h
  subst hu hv
  have hyy : y * y ≤ xx * xx := by omega
  have hx2 : ((xx - y) + (xx + y)) / 2 = xx := by omega
  have hy2 : ((xx + y) - (xx - y)) / 2 = y := by omega
  refine ⟨?_, by omega, ⟨xx, by omega⟩, ?_, ?_, ?_, ?_⟩
  · zify [hyx, hnx] at hsq ⊢
    linear_combination hsq
  · rw [hx2]
    exact hnx
  · rw [hx2, hy2]
    exact hsq
  · omega
  · omega

/-- Witness for claim C5 at `n = 15`, `K = 1`: the attack returns `(3, 5)`
in one step and `3 * 5 = 15`, `3 ≤ 5`. -/
theorem claim_C5_witness :
    1 ≤ 15 ∧ ataque_de_fermat 15 1 = .ok (some (3, 5)) ∧ 3 * 5 = 15 ∧ 3 ≤ 5 := by
  have hs15 : Nat.sqrt 15 = 3 := nat_sqrt_eq (by norm_num) (by norm_num)
  have hi : fermat_inicio 15 = 4 := by rw [fermat_inicio, hs15]; norm_num
  have hs1 : Nat.sqrt 1 = 1 := nat_sqrt_eq (by norm_num) (by norm_num)
  have hexec : ataque_de_fermat 15 1 = .ok (some (3, 5)) := by
    rw [ataque_de_fermat_eq, hi, ataque_loop_succ 15 4 0 (by norm_num)]
    norm_num [hs1]
  exact ⟨by norm_num, hexec, (claim_C5_exito 15 1 3 5 (by norm_num) hexec).1,
    (claim_C5_exito 15 1 3 5 (by norm_num) hexec).2.1⟩

/-! ## Miller-Rabin on primes -/

/-- Soundness: `quitar_dos` really extracts the odd part: `d = d' * 2^s` with `d'` odd. -/
lemma quitar_dos_spec : ∀ d : ℕ, d ≠ 0 →
    d = (quitar_dos d).2 * 2 ^ (quitar_dos d).1 ∧ (quitar_dos d).2 % 2 = 1 := by
  intro d
  induction d using Nat.strong_induction_on with
  | _ d ih =>
    intro hd
    rw [quitar_dos]
    by_cases h : d % 2 = 0 ∧ d ≠ 0
    · rw [dif_pos h]
      have hlt : d / 2 < d := Nat.div_lt_self (Nat.pos_of_ne_zero hd) one_lt_two
      have hd2 : d / 2 ≠ 0 := by omega
      obtain ⟨h1, h2⟩ := ih (d / 2) hlt hd2
      refine ⟨?_, h2⟩
      rw [pow_succ, ← mul_assoc, ← h1]
      omega
    · rw [dif_neg h]
      exact ⟨by simp, by omega⟩

/-- Soundness: `descomponer_potencia_dos` writes `n - 1 = d * 2^s` with `d` odd, for
every `n ≥ 2`. -/
lemma descomponer_spec (n : ℕ) (hn : 2 ≤ n) :
    n - 1 = (descomponer_potencia_dos n).2 * 2 ^ (descomponer_potencia_dos n).1 ∧
    (descomponer_potencia_dos n).2 % 2 = 1 := by
  rw [descomponer_potencia_dos]
  exact quitar_dos_spec (n - 1) (by omega)

lemma sq_iter_shift (n : ℕ) (x : ℤ) :
    ∀ j, sq_iter n (x * x % (n : ℤ)) j = sq_iter n x (j + 1) := by
  intro j
  induction j with
  | zero => rfl
  | succ j ih => simp only [sq_iter, ih]

/-- If some iterate of the squaring chain hits `n - 1` within the budget,
`mr_sqloop` returns `true`. -/
lemma mr_sqloop_hits (n : ℕ) :
    ∀ (k : ℕ) (x : ℤ) (j : ℕ), j < k → sq_iter n x (j + 1) = (n : ℤ) - 1 →
      mr_sqloop n x k = true := by
  intro k
  induction k with
  | zero =>
    intro x j hj
    omega
  | succ k ih =>
    intro x j hj hhit
    rw [mr_sqloop]
    by_cases hc : x * x % (n : ℤ) = (n : ℤ) - 1
    · rw [if_pos hc]
    · rw [if_neg hc]
      match j with
      | 0 => exact absurd (by simpa [sq_iter] using hhit) hc
      | j + 1 =>
        exact ih (x * x % (n : ℤ)) j (by omega) (by rw [sq_iter_shift]; exact hhit)

/-- The squaring chain started from `a^d mod n` consists of the values
`a^(d·2^j) mod n`. -/
lemma sq_iter_values (n a d : ℕ) :
    ∀ j, sq_iter n (((a ^ d % n : ℕ)) : ℤ) j = ((a ^ (d * 2 ^ j) % n : ℕ) : ℤ) := by
  intro j
  induction j with
  | zero => simp [sq_iter]
  | succ j ih =>
    rw [sq_iter, ih, ← Nat.cast_mul, ← Int.natCast_mod]
    congr 1
    rw [← Nat.mul_mod, ← pow_add]
    congr 1
    rw [pow_succ]
    ring

/-- In `ZMod p` (`p` prime), if `A^(d·2^i) = 1` then walking the squaring
chain backwards either reaches `A^d = 1` or passes through `-1`. -/
lemma zmod_chain {p : ℕ} [Fact (Nat.Prime p)] (A : ZMod p) (d : ℕ) :
    ∀ i : ℕ, A ^ (d * 2 ^ i) = 1 →
      A ^ d = 1 ∨ ∃ j, j < i ∧ A ^ (d * 2 ^ j) = -1 := by
  intro i
  induction i with
  | zero =>
    intro h
    left
    simpa using h
  | succ i ih =>
    intro h
    have hsq : A ^ (d * 2 ^ i) * A ^ (d * 2 ^ i) = 1 := by
      rw [← pow_add, show d * 2 ^ i + d * 2 ^ i = d * 2 ^ (i + 1) by rw [pow_succ]; ring]
      exact h
    rcases mul_self_eq_one_iff.mp hsq with h1 | hm1
    · rcases ih h1 with h0 | ⟨j, hj, hjm⟩
      · exact Or.inl h0
      · exact Or.inr ⟨j, by omega, hjm⟩
    · exact Or.inr ⟨i, by omega, hm1⟩

/-- Reduction mod `n` commutes with the cast into `ZMod n`. -/
lemma cast_pow_mod (n a k : ℕ) : ((a ^ k % n : ℕ) : ZMod n) = (a : ZMod n) ^ k := by
  calc ((a ^ k % n : ℕ) : ZMod n)
      = ((a ^ k : ℕ) : ZMod n) := (ZMod.natCast_eq_natCast_iff _ _ _).mpr (Nat.mod_modEq _ _)
    _ = (a : ZMod n) ^ k := by push_cast; rfl

/-- Two naturals below `n` that agree in `ZMod n` are equal. -/
lemma val_eq_of_cast_eq {n x y : ℕ} (hx : x < n) (hy : y < n)
    (h : (x : ZMod n) = (y : ZMod n)) : x = y := by
  have h1 : x % n = y % n := (ZMod.natCast_eq_natCast_iff x y n).mp h
  rw [Nat.mod_eq_of_lt hx, Nat.mod_eq_of_lt hy] at h1
  exact h1

/-- Cast fact: `n - 1` casts to `-1` in `ZMod n`. -/
lemma neg_one_cast (n : ℕ) (hn : 1 ≤ n) : ((n - 1 : ℕ) : ZMod n) = -1 := by
  rw [Nat.cast_sub hn, ZMod.natCast_self, Nat.cast_one]
  ring

/-- The Miller-Rabin round accepts every witness `2 ≤ a ≤ n - 2` when `n`
is an (odd) prime `> 3`: the chain `a^d, a^(2d), …, a^(2^s d) = a^(n-1)`
ends at `1` by Fermat, and in the field `ZMod n` the only square roots of
`1` are `±1`, so the round's tests cannot all fail. -/
lemma ronda_miller_rabin_prime (n a : ℕ) (hp : Nat.Prime n) (h3 : 3 < n)
    (ha2 : 2 ≤ a) (han : a ≤ n - 2) : ronda_miller_rabin n a = true := by
  haveI : Fact (Nat.Prime n) := ⟨hp⟩
  have hn1 : 2 ≤ n := hp.two_le
  obtain ⟨hnd, hodd⟩ := descomponer_spec n hn1
  have hd0 : (descomponer_potencia_dos n).2 ≠ 0 := by omega
  have hx : exponenciacion_modular (a : ℤ) (descomponer_potencia_dos n).2 (n : ℤ) =
      ((a ^ (descomponer_potencia_dos n).2 % n : ℕ) : ℤ) := by
    rw [exponenciacion_modular_spec _ hd0, Int.natCast_mod, Nat.cast_pow]
  have hA0 : (a : ZMod n) ≠ 0 := by
    intro h0
    have hdvd : n ∣ a := (ZMod.natCast_zmod_eq_zero_iff_dvd a n).mp h0
    have := Nat.le_of_dvd (by omega) hdvd
    omega
  have hferm : (a : ZMod n) ^ (n - 1) = 1 := ZMod.pow_card_sub_one_eq_one hA0
  have htop : (a : ZMod n) ^
      ((descomponer_potencia_dos n).2 * 2 ^ (descomponer_potencia_dos n).1) = 1 := by
    rw [← hnd]
    exact hferm
  rcases zmod_chain (a : ZMod n) (descomponer_potencia_dos n).2
      (descomponer_potencia_dos n).1 htop with h1 | ⟨j, hj, hneg⟩
  · have hN1 : a ^ (descomponer_potencia_dos n).2 % n = 1 := by
      apply val_eq_of_cast_eq (Nat.mod_lt _ (by omega)) (by omega)
      rw [cast_pow_mod]
      simpa using h1
    rw [ronda_miller_rabin, hx, hN1]
    norm_num
  · have hNj : a ^ ((descomponer_potencia_dos n).2 * 2 ^ j) % n = n - 1 := by
      apply val_eq_of_cast_eq (Nat.mod_lt _ (by omega)) (by omega)
      rw [cast_pow_mod, neg_one_cast n (by omega)]
      exact hneg
    rcases Nat.eq_zero_or_pos j with hj0 | hjpos
    · subst hj0
      have hNd : a ^ (descomponer_potencia_dos n).2 % n = n - 1 := by
        simpa using hNj
      rw [ronda_miller_rabin, hx, hNd]
      rw [show ((n - 1 : ℕ) : ℤ) = (n : ℤ) - 1 by omega]
      simp
    · rw [ronda_miller_rabin]
      by_cases hif : exponenciacion_modular (a : ℤ) (descomponer_potencia_dos n).2 (n : ℤ) = 1 ∨
          exponenciacion_modular (a : ℤ) (descomponer_potencia_dos n).2 (n : ℤ) = (n : ℤ) - 1
      · rw [if_pos hif]
      · rw [if_neg hif]
        refine mr_sqloop_hits n _ _ (j - 1) (by omega) ?_
        rw [hx, show j - 1 + 1 = j by omega, sq_iter_values, hNj]
        omega

/-- Acceptance: `es_primo_probable` accepts every prime, for arbitrary witness values
in the sampled range `[2, n - 2]`. -/
lemma es_primo_probable_prime (n rondas : ℕ) (w : ℕ → ℕ) (hp : Nat.Prime n)
    (hw : ∀ i, i < rondas → 5 ≤ n → 2 ≤ w i ∧ w i ≤ n - 2) :
    es_primo_probable n rondas w = true := by
  rw [es_primo_probable, if_neg (not_lt.mpr hp.two_le)]
  by_cases h23 : n = 2 ∨ n = 3
  · rw [if_pos h23]
  · rw [if_neg h23]
    have hn4 : n ≠ 4 := fun h => by rw [h] at hp; norm_num at hp
    have hn5 : 5 ≤ n := by
      have h2 := hp.two_le
      push_neg at h23
      omega
    have hodd : n % 2 = 1 := Nat.odd_iff.mp (hp.odd_of_ne_two (by omega))
    rw [if_neg (by omega)]
    rw [List.all_eq_true]
    intro i hi
    rw [List.mem_range] at hi
    exact ronda_miller_rabin_prime n (w i) hp (by omega)
      (hw i hi hn5).1 (hw i hi hn5).2

/-- Claim C3: for every odd prime `n > 3` and every witness `2 ≤ a ≤ n-2`,
`ronda_miller_rabin n a` returns `true`; consequently, for every prime
`n ≥ 2`, any number of rounds, and any values of the randomly drawn
witnesses (`random.randrange(2, n-1)` produces exactly the values
`2 + t mod (n-3)`, here injected through an arbitrary sequence `v`),
`es_primo_probable` returns `true`: the test can never reject a prime, so
a `false` result is a definitive proof of compositeness. -/
theorem claim_C3_miller_rabin (n a rondas : ℕ) (v : ℕ → ℕ) (hn : Nat.Prime n) :
    (¬(Odd n ∧ 3 < n ∧ 2 ≤ a ∧ a ≤ n - 2) ∨ ronda_miller_rabin n a = true) ∧
    es_primo_probable n rondas (fun i => 2 + v i % (n - 3)) = true := by
  constructor
  · by_cases h : Odd n ∧ 3 < n ∧ 2 ≤ a ∧ a ≤ n - 2
    · exact Or.inr (ronda_miller_rabin_prime n a hn h.2.1 h.2.2.1 h.2.2.2)
    · exact Or.inl h
  · apply es_primo_probable_prime n rondas _ hn
    intro i hi hn5
    have hmod : v i % (n - 3) < n - 3 := Nat.mod_lt _ (by omega)
    omega

/-- Witness for claim C3 at the prime `n = 5` with witness `a = 2` and one
round drawing `2`. -/
theorem claim_C3_witness :
    Nat.Prime 5 ∧
    (¬(Odd 5 ∧ 3 < 5 ∧ 2 ≤ 2 ∧ 2 ≤ 5 - 2) ∨ ronda_miller_rabin 5 2 = true) ∧
    es_primo_probable 5 1 (fun i => 2 + (fun _ : ℕ => 0) i % (5 - 3)) = true :=
  ⟨by norm_num, (claim_C3_miller_rabin 5 2 1 (fun _ => 0) (by norm_num)).1,
   (claim_C3_miller_rabin 5 2 1 (fun _ => 0) (by norm_num)).2⟩

/-! ## RSA round-trip -/

/-- For distinct primes, `φ = (p-1)(q-1) ≥ 2`. -/
lemma phi_two_le {p q : ℕ} (hp : Nat.Prime p) (hq : Nat.Prime q) (hpq : p ≠ q) :
    2 ≤ (p - 1) * (q - 1) := by
  have hp2 := hp.two_le
  have hq2 := hq.two_le
  rcases Nat.lt_or_ge p 3 with h | h
  · have hp' : p = 2 := by omega
    have hq3 : 3 ≤ q := by
      rcases Nat.lt_or_ge q 3 with h' | h'
      · exact absurd (hp'.trans (by omega : q = 2).symm) hpq
      · exact h'
    calc 2 ≤ q - 1 := by omega
      _ = 1 * (q - 1) := (one_mul _).symm
      _ ≤ (p - 1) * (q - 1) := Nat.mul_le_mul_right _ (by omega)
  · calc 2 ≤ p - 1 := by omega
      _ = (p - 1) * 1 := (mul_one _).symm
      _ ≤ (p - 1) * (q - 1) := Nat.mul_le_mul_left _ (by omega)

/-- Fermat step: `m^(1 + (p-1)t) ≡ m (mod p)` for `p` prime and any `m`
(coprime or not). -/
lemma fermat_aux (p : ℕ) (hp : Nat.Prime p) (m t : ℕ) :
    m ^ (1 + (p - 1) * t) ≡ m [MOD p] := by
  haveI : Fact (Nat.Prime p) := ⟨hp⟩
  by_cases hdvd : p ∣ m
  · have h1 : m ≡ 0 [MOD p] := Nat.modEq_zero_iff_dvd.mpr hdvd
    calc m ^ (1 + (p - 1) * t)
        ≡ 0 ^ (1 + (p - 1) * t) [MOD p] := h1.pow _
      _ = 0 := zero_pow (by omega)
      _ ≡ m [MOD p] := h1.symm
  · have hM0 : (m : ZMod p) ≠ 0 := fun h0 =>
      hdvd ((ZMod.natCast_zmod_eq_zero_iff_dvd m p).mp h0)
    have hz : ((m ^ (1 + (p - 1) * t) : ℕ) : ZMod p) = ((m : ℕ) : ZMod p) := by
      push_cast
      rw [pow_add, pow_one, pow_mul, ZMod.pow_card_sub_one_eq_one hM0, one_pow, mul_one]
    exact (ZMod.natCast_eq_natCast_iff _ _ _).mp hz

/-- RSA core congruence: for distinct primes `p ≠ q` and exponents with
`e·d ≡ 1 (mod (p-1)(q-1))`, `m^(e·d) ≡ m (mod p·q)` for every `m`. -/
lemma rsa_core (p q e d m : ℕ) (hp : Nat.Prime p) (hq : Nat.Prime q) (hpq : p ≠ q)
    (hed : e * d ≡ 1 [MOD (p - 1) * (q - 1)]) :
    m ^ (e * d) ≡ m [MOD p * q] := by
  have hphi2 : 2 ≤ (p - 1) * (q - 1) := phi_two_le hp hq hpq
  have hed1 : 1 ≤ e * d := by
    by_contra h
    rw [show e * d = 0 by omega] at hed
    have hdvd : (p - 1) * (q - 1) ∣ 1 := (Nat.modEq_iff_dvd' (by omega)).mp hed
    have := Nat.le_of_dvd one_pos hdvd
    omega
  obtain ⟨k, hk⟩ : ∃ k, e * d = 1 + (p - 1) * (q - 1) * k := by
    obtain ⟨k, hk⟩ := (Nat.modEq_iff_dvd' hed1).mp hed.symm
    exact ⟨k, by omega⟩
  have hco : Nat.Coprime p q := (Nat.coprime_primes hp hq).mpr hpq
  apply (Nat.modEq_and_modEq_iff_modEq_mul hco).mp
  constructor
  · rw [hk, show 1 + (p - 1) * (q - 1) * k = 1 + (p - 1) * ((q - 1) * k) by ring]
    exact fermat_aux p hp m ((q - 1) * k)
  · rw [hk, show 1 + (p - 1) * (q - 1) * k = 1 + (q - 1) * ((p - 1) * k) by ring]
    exact fermat_aux q hq m ((p - 1) * k)

/-- Claim C1: for every key pair returned by the key generator on distinct
primes `p ≠ q` (so `n = p·q`, `e = 65537`, `d` its inverse mod
`(p-1)(q-1)`, which exists since the generator returned), and every
message `0 ≤ m < n`, decryption inverts encryption. -/
theorem claim_C1_roundtrip (p q : ℕ) (hp : Nat.Prime p) (hq : Nat.Prime q)
    (hpq : p ≠ q) (pub priv : ℕ × ℕ)
    (hgen : generar_claves_rsa_con p q = some (pub, priv))
    (m : ℕ) (hm : m < p * q) :
    descifrar_rsa (cifrar_rsa (m : ℤ) pub) priv = (m : ℤ) := by
  rcases hinv : inverso_modular 65537 ((p - 1) * (q - 1)) with _ | d
  · rw [generar_claves_rsa_con, hinv] at hgen
    simp at hgen
  · rw [generar_claves_rsa_con, hinv] at hgen
    simp only [Option.some.injEq, Prod.mk.injEq] at hgen
    obtain ⟨rfl, rfl⟩ := hgen
    have hphi2 : 2 ≤ (p - 1) * (q - 1) := phi_two_le hp hq hpq
    have hspec := inverso_modular_spec 65537 _ d (by omega) hinv
    have hed : 65537 * d ≡ 1 [MOD (p - 1) * (q - 1)] := hspec.2
    have hd1 : d ≠ 0 := by
      intro h0
      rw [h0, mul_zero] at hed
      have hdvd : (p - 1) * (q - 1) ∣ 1 := (Nat.modEq_iff_dvd' (by omega)).mp hed
      have := Nat.le_of_dvd one_pos hdvd
      omega
    have hcast : ∀ (x b : ℕ), b ≠ 0 →
        exponenciacion_modular ((x : ℕ) : ℤ) b (((p * q : ℕ) : ℤ)) =
          ((x ^ b % (p * q) : ℕ) : ℤ) := fun x b hb => by
      rw [exponenciacion_modular_spec _ hb, Int.natCast_mod, Nat.cast_pow]
    rw [cifrar_rsa, descifrar_rsa]
    simp only
    rw [hcast m 65537 (by norm_num), hcast _ d hd1]
    have hfin : (m ^ 65537 % (p * q)) ^ d % (p * q) = m := by
      rw [← Nat.pow_mod, ← pow_mul]
      calc m ^ (65537 * d) % (p * q)
          = m % (p * q) := rsa_core p q 65537 d m hp hq hpq hed
        _ = m := Nat.mod_eq_of_lt hm
    rw [hfin]

/-- Witness for claim C1 with `p = 3`, `q = 5` (keys `((15, 65537), (15, 1))`)
and the message `m = 2`. -/
theorem claim_C1_witness :
    Nat.Prime 3 ∧ Nat.Prime 5 ∧ (3 : ℕ) ≠ 5 ∧
    generar_claves_rsa_con 3 5 = some ((15, 65537), (15, 1)) ∧ (2 : ℕ) < 3 * 5 ∧
    descifrar_rsa (cifrar_rsa ((2 : ℕ) : ℤ) (15, 65537)) (15, 1) = ((2 : ℕ) : ℤ) := by
  have hmcd : mcd_extendido 65537 8 = (1, 1, -8192) := by
    set_option maxRecDepth 20000 in simp [mcd_extendido]
  have hinv : inverso_modular 65537 8 = some 1 := by
    rw [inverso_modular, hmcd]
    norm_num
  have hgen : generar_claves_rsa_con 3 5 = some ((15, 65537), (15, 1)) := by
    rw [generar_claves_rsa_con]
    norm_num [hinv]
  exact ⟨by norm_num, by norm_num, by norm_num, hgen, by norm_num,
    claim_C1_roundtrip 3 5 (by norm_num) (by norm_num) (by norm_num) _ _ hgen 2 (by norm_num)⟩

end RSA
